import Mathlib

/-
Verification of the finmarketpy backtest core
(src/finmarketpy/backtest/backtestengine.py: Backtest.calculate_trading_PnL
and RiskEngine.calculate_leverage_factor) against its specification.

The pandas/numpy float cells are embedded as an inductive value type `PVal`
(NaN, +inf, -inf, or an exact rational) with IEEE-754-style arithmetic;
DataFrames become `Frame`s: an ordered integer date index, column names and
column-major data.  Numeric helpers that live in the external findatapy
library (calculate_returns, calculate_signal_returns_with_tc_matrix,
rolling_volatility, resample_time_series_frequency) are modelled from the
specification text; each such definition carries a doc comment saying so.
-/

/-- A pandas float cell: NaN, +infinity, -infinity, or a finite value
(modelled as an exact rational). -/
inductive PVal where
  | nan : PVal
  | pinf : PVal
  | ninf : PVal
  | val : ℚ → PVal
deriving DecidableEq, Repr, Inhabited

/-- numpy.isnan on a cell. -/
def PVal.isNaN : PVal → Bool
  | .nan => true
  | _ => false

/-- Is the cell +infinity? -/
def PVal.isPinf : PVal → Bool
  | .pinf => true
  | _ => false

/-- Is the cell -infinity? -/
def PVal.isNinf : PVal → Bool
  | .ninf => true
  | _ => false

/-- IEEE-style negation. -/
def PVal.neg : PVal → PVal
  | .nan => .nan
  | .pinf => .ninf
  | .ninf => .pinf
  | .val q => .val (-q)

/-- IEEE-style addition: NaN propagates, opposite infinities give NaN. -/
def PVal.add : PVal → PVal → PVal
  | .nan, _ => .nan
  | _, .nan => .nan
  | .pinf, .ninf => .nan
  | .ninf, .pinf => .nan
  | .pinf, _ => .pinf
  | _, .pinf => .pinf
  | .ninf, _ => .ninf
  | _, .ninf => .ninf
  | .val a, .val b => .val (a + b)

/-- IEEE-style subtraction. -/
def PVal.sub (a b : PVal) : PVal := a.add b.neg

/-- IEEE-style multiplication: NaN propagates, infinity times zero is NaN. -/
def PVal.mul : PVal → PVal → PVal
  | .nan, _ => .nan
  | _, .nan => .nan
  | .pinf, .pinf => .pinf
  | .pinf, .ninf => .ninf
  | .ninf, .pinf => .ninf
  | .ninf, .ninf => .pinf
  | .pinf, .val b => if 0 < b then .pinf else if b < 0 then .ninf else .nan
  | .val a, .pinf => if 0 < a then .pinf else if a < 0 then .ninf else .nan
  | .ninf, .val b => if 0 < b then .ninf else if b < 0 then .pinf else .nan
  | .val a, .ninf => if 0 < a then .ninf else if a < 0 then .pinf else .nan
  | .val a, .val b => .val (a * b)

/-- IEEE-style division: NaN propagates, x/0 is a signed infinity (0/0 NaN),
finite/infinity is 0, infinity/infinity is NaN. -/
def PVal.div : PVal → PVal → PVal
  | .nan, _ => .nan
  | _, .nan => .nan
  | .pinf, .pinf => .nan
  | .pinf, .ninf => .nan
  | .ninf, .pinf => .nan
  | .ninf, .ninf => .nan
  | .pinf, .val b => if b < 0 then .ninf else .pinf
  | .ninf, .val b => if b < 0 then .pinf else .ninf
  | .val _, .pinf => .val 0
  | .val _, .ninf => .val 0
  | .val a, .val b =>
      if b = 0 then (if 0 < a then .pinf else if a < 0 then .ninf else .nan)
      else .val (a / b)

/-- IEEE-style absolute value. -/
def PVal.pabs : PVal → PVal
  | .nan => .nan
  | .pinf => .pinf
  | .ninf => .pinf
  | .val q => .val |q|

/-- IEEE-style strict comparison: any comparison with NaN is false. -/
def PVal.lt : PVal → PVal → Bool
  | .nan, _ => false
  | _, .nan => false
  | .ninf, .ninf => false
  | .ninf, _ => true
  | _, .ninf => false
  | .pinf, _ => false
  | .val _, .pinf => true
  | .val a, .val b => decide (a < b)

/-- Cell lookup in a column, NaN when out of range (series cells that do not
exist never compare as numbers). -/
def getP (xs : List PVal) (t : ℕ) : PVal := xs.getD t PVal.nan

/-- The cell one period before position t (NaN before the first position). -/
def prevP (xs : List PVal) (t : ℕ) : PVal :=
  if t = 0 then PVal.nan else getP xs (t - 1)

/-- Forward-fill worker: carries the last non-NaN value seen so far
(pandas fillna(method="ffill") down a column). -/
def ffillGo : PVal → List PVal → List PVal
  | _, [] => []
  | last, x :: r =>
      let y := if x.isNaN then last else x
      y :: ffillGo y r

/-- pandas fillna(method="ffill") on one column. -/
def ffillCol (xs : List PVal) : List PVal := ffillGo PVal.nan xs

/-- Modelled from the spec: findatapy Calculations.calculate_returns is the
simple period-over-period percentage change of each column
(x t / x (t-1) - 1), with an undefined (NaN) first observation. -/
def returnsCol (xs : List PVal) : List PVal :=
  (List.range xs.length).map fun t =>
    PVal.sub (PVal.div (getP xs t) (prevP xs t)) (PVal.val 1)

/-- Modelled from the spec: findatapy
Calculations.calculate_signal_returns_with_tc_matrix on one asset column.
The realized return at t is the previous period's position times the return
at t, minus a cost of tc times the absolute change in position
|position t - position (t-1)|; the first observation has NaN P&L because
there is no prior position. -/
def calculate_signal_returns_with_tc_col (tc : ℚ) (sig ret : List PVal) : List PVal :=
  (List.range ret.length).map fun t =>
    PVal.sub (PVal.mul (prevP sig t) (getP ret t))
             (PVal.mul (PVal.pabs (PVal.sub (getP sig t) (prevP sig t))) (PVal.val tc))

/-- A pandas DataFrame: ordered observation dates (as integers), column
names, and column-major cell data. -/
structure Frame where
  dates : List ℤ
  cols : List String
  data : List (List PVal)
deriving DecidableEq, Repr, Inhabited

/-- Column j of a frame (empty when out of range). -/
def Frame.colD (F : Frame) (j : ℕ) : List PVal := F.data.getD j []

/-- Well-formed frame: every column has one cell per observation date. -/
def Frame.WF (F : Frame) : Prop :=
  ∀ col ∈ F.data, col.length = F.dates.length

/-- The row of cells of a frame at position t, one per column. -/
def rowAt (F : Frame) (t : ℕ) : List PVal :=
  F.data.map fun col => getP col t

/-- pandas align(join="left", axis="index"): reindex a frame onto the left
frame's date index; dates absent from the frame's own index become NaN,
dates of the frame absent from the target index are dropped. -/
def reindexFrame (F : Frame) (target : List ℤ) : Frame :=
  { dates := target, cols := F.cols,
    data := F.data.map fun col =>
      target.map fun d =>
        match F.dates.findIdx? (fun d0 => d0 == d) with
        | some i => getP col i
        | none => PVal.nan }

/-- signal_df.mask(numpy.isnan(asset_df.values)): force the signal cell to
NaN wherever the positionally corresponding asset cell is NaN. -/
def maskFrame (sig asset : Frame) : Frame :=
  { dates := sig.dates, cols := sig.cols,
    data := List.zipWith
      (fun sc ac => List.zipWith (fun s a => if a.isNaN then PVal.nan else s) sc ac)
      sig.data asset.data }

/-- fillna(method="ffill") on every column of a frame. -/
def ffillFrame (F : Frame) : Frame :=
  { F with data := F.data.map ffillCol }

/-- Modelled from the spec: findatapy Calculations.calculate_returns applied
to a whole frame (column-wise simple returns). -/
def calculate_returns_frame (F : Frame) : Frame :=
  { F with data := F.data.map returnsCol }

/-- Modelled from the spec: findatapy
Calculations.calculate_signal_returns_with_tc_matrix on whole frames.  The
source multiplies the .values arrays, so columns are paired positionally;
the result keeps the signal frame's index and column labels. -/
def calculate_signal_returns_with_tc_matrix (tc : ℚ) (sig ret : Frame) : Frame :=
  { dates := sig.dates, cols := sig.cols,
    data := List.zipWith (calculate_signal_returns_with_tc_col tc) sig.data ret.data }

/-- pandas DataFrame.mean(axis=1): the mean across a row, skipping NaN
cells (an all-NaN row gives NaN); infinities dominate as in numpy. -/
def meanRow (row : List PVal) : PVal :=
  if row.any PVal.isPinf && row.any PVal.isNinf then PVal.nan
  else if row.any PVal.isPinf then PVal.pinf
  else if row.any PVal.isNinf then PVal.ninf
  else
    let fs := row.filterMap fun x => match x with | PVal.val q => some q | _ => none
    if fs.isEmpty then PVal.nan else PVal.val (fs.sum / fs.length)

/-- pandas DataFrame.sum(axis=1): the sum across a row, skipping NaN cells
(an all-NaN row gives 0, pandas' min_count=0 default). -/
def sumRow (row : List PVal) : PVal :=
  if row.any PVal.isPinf && row.any PVal.isNinf then PVal.nan
  else if row.any PVal.isPinf then PVal.pinf
  else if row.any PVal.isNinf then PVal.ninf
  else
    PVal.val (row.filterMap fun x => match x with | PVal.val q => some q | _ => none).sum

/-- Collapse a P&L frame into the one-column "Portfolio" frame using a
row-combination function (pandas sum/mean along axis=1). -/
def portfolioFrame (f : List PVal → PVal) (pnl : Frame) : Frame :=
  { dates := pnl.dates, cols := ["Portfolio"],
    data := [(List.range pnl.dates.length).map fun t => f (rowAt pnl t)] }

/-- The always-one portfolio leverage series
(pandas.DataFrame(numpy.ones(len(index)))). -/
def onesFrame (dates : List ℤ) : Frame :=
  { dates := dates, cols := ["Portfolio"],
    data := [List.replicate dates.length (PVal.val 1)] }

/-- pandas.DataFrame(signal_df.values * leverage_df.values): element-wise,
positional product keeping the signal frame's index and columns. -/
def mulFrames (sig lev : Frame) : Frame :=
  { dates := sig.dates, cols := sig.cols,
    data := List.zipWith (List.zipWith PVal.mul) sig.data lev.data }

/-- numpy.multiply(transpose(leverage_matrix), signal_df.values): scale every
signal column element-wise by the single portfolio leverage column. -/
def portfolioSignalFrame (plev sig : Frame) : Frame :=
  { dates := sig.dates, cols := sig.cols,
    data := sig.data.map fun col => List.zipWith PVal.mul (plev.colD 0) col }

/-- Element-wise division of a frame by the scalar float(n). -/
def divFrameScalar (F : Frame) (n : ℕ) : Frame :=
  { F with data := F.data.map fun col => col.map fun x => PVal.div x (PVal.val n) }

/-- The trailing window of p cells ending at position t. -/
def windowAt (xs : List PVal) (t p : ℕ) : List PVal :=
  (List.range p).map fun i => getP xs (t + 1 - p + i)

/-- Extract the finite values of a window; none when some cell of the window
is NaN or infinite (pandas rolling std over such a window is NaN). -/
def finVals? : List PVal → Option (List ℚ)
  | [] => some []
  | x :: r =>
      match x with
      | PVal.val q => (finVals? r).map fun qs => q :: qs
      | _ => none

/-- Sample variance with denominator n - 1 (pandas std default ddof=1). -/
def sampleVar (qs : List ℚ) : ℚ :=
  let n : ℚ := qs.length
  let m : ℚ := qs.sum / n
  (qs.map fun x => (x - m) ^ 2).sum / (n - 1)

/-- Modelled from the spec: findatapy Calculations.rolling_volatility is the
rolling standard deviation of the returns over a trailing window of p
observations, annualized by sqrt(obs_in_year).  The square root is abstracted
as a parameter sq; the theorems only assume the true square root's sign
behaviour (nonnegative, vanishing at zero), which is all the claims use.
Until the window is full (and for a degenerate window length p < 2, where
pandas' ddof=1 sample std is undefined) the estimate is NaN. -/
def rolling_volatility_col (sq : ℚ → ℚ) (p obsY : ℕ) (xs : List PVal) : List PVal :=
  (List.range xs.length).map fun t =>
    if t + 1 < p ∨ p < 2 then PVal.nan
    else
      match finVals? (windowAt xs t p) with
      | some qs => PVal.val (sq (sampleVar qs) * sq (obsY : ℚ))
      | none => PVal.nan

/-- pandas shift(n) on a column: n leading NaNs, values pushed down. -/
def shiftCol (n : ℕ) (xs : List PVal) : List PVal :=
  List.replicate n PVal.nan ++ xs.take (xs.length - n)

/-- lev_df[lev_df > vol_max_leverage] = vol_max_leverage: element-wise clamp
of every cell comparing above the cap (+infinity clamps; NaN, which never
compares true, is left alone). -/
def capLeverage (maxLev : ℚ) (xs : List PVal) : List PVal :=
  xs.map fun x => if PVal.lt (PVal.val maxLev) x then PVal.val maxLev else x

/-- Modelled from the spec: findatapy Filter.resample_time_series_frequency
with the default mean aggregation, followed by the engine's left re-align to
the original index.  The rebalance calendar is modelled as the sizes of
consecutive buckets of observation positions (e.g. the trading days of each
calendar month for a business-month-end calendar); each bucket's last
observation carries the NaN-skipping mean of the bucket's cells, every other
observation is NaN (to be forward-filled by the caller).  Positions beyond
the listed buckets have no rebalance date and stay NaN. -/
def resampleCol (sizes : List ℕ) (xs : List PVal) : List PVal :=
  match sizes with
  | [] => xs.map fun _ => PVal.nan
  | k :: rest =>
      let chunk := xs.take k
      ((List.range chunk.length).map fun i =>
        if i + 1 = k then meanRow chunk else PVal.nan)
        ++ resampleCol rest (xs.drop k)

/-- lev_df.ix[0:vol_periods] = numpy.nan: force the first p observations
(positions 0 to p-1, pandas positional slice) to NaN. -/
def forceFirstNaN (p : ℕ) (xs : List PVal) : List PVal :=
  (List.range xs.length).map fun t => if t < p then PVal.nan else getP xs t

/-- RiskEngine.calculate_leverage_factor.  Returns Python None (here: none)
when a pre-resample frequency is set (the explicitly unimplemented branch);
otherwise computes, per column: rolling annualized volatility, optional
period shift, raw leverage vol_target / vol, clamp at vol_max_leverage,
rebalance-calendar resample, left re-align and forward-fill, and finally
NaN over the first vol_periods observations. -/
def calculate_leverage_factor (sq : ℚ → ℚ) (returns_df : Frame)
    (vol_target vol_max_leverage : ℚ) (vol_periods vol_obs_in_year : ℕ)
    (vol_rebalance_freq : List ℕ) (data_resample_freq : Option String)
    (data_resample_type : String) (returns : Bool) (period_shift : ℕ) :
    Option Frame :=
  if data_resample_freq.isSome then none
  else
    let rdf := if returns then returns_df else calculate_returns_frame returns_df
    some { dates := rdf.dates, cols := rdf.cols,
           data := rdf.data.map fun col =>
             forceFirstNaN vol_periods (ffillCol (resampleCol vol_rebalance_freq
               (capLeverage vol_max_leverage
                 ((shiftCol period_shift
                    (rolling_volatility_col sq vol_periods vol_obs_in_year col)).map
                   fun v => PVal.div (PVal.val vol_target) v)))) }

/-- The recognized fields of a BacktestRequest.  Python attributes that the
engine probes with hasattr are Option-valued: none models an absent
attribute.  signal_vol_resample_freq and portfolio_vol_resample_freq are
Option (Option String): the outer layer models attribute absence, the inner
layer the Python None value.  Rebalance calendars are modelled as bucket
sizes, as in resampleCol. -/
structure BacktestRequest where
  spot_tc_bp : ℚ
  ann_factor : ℚ
  signal_vol_adjust : Option Bool
  signal_vol_target : ℚ
  signal_vol_max_leverage : ℚ
  signal_vol_periods : ℕ
  signal_vol_obs_in_year : ℕ
  signal_vol_rebalance_freq : List ℕ
  signal_vol_resample_freq : Option (Option String)
  signal_vol_resample_type : Option String
  portfolio_vol_adjust : Option Bool
  portfolio_vol_target : ℚ
  portfolio_vol_max_leverage : ℚ
  portfolio_vol_periods : ℕ
  portfolio_vol_obs_in_year : ℕ
  portfolio_vol_rebalance_freq : List ℕ
  portfolio_vol_resample_freq : Option (Option String)
  portfolio_vol_resample_type : Option String
  portfolio_combination : Option String
deriving DecidableEq, Repr, Inhabited

/-- The outputs calculate_trading_PnL stores on the Backtest object, plus
the final state of the caller's BacktestRequest (the engine assigns default
resample attributes onto br in place, so the post-call object is part of the
observable behaviour). -/
structure BacktestOutput where
  br' : BacktestRequest
  pnl : Frame
  portfolio : Frame
  portfolio_leverage : Frame
  signal : Frame
  portfolio_signal : Frame
  individual_leverage : Option Frame
deriving DecidableEq, Repr, Inhabited

/-- The signal-level vol-target branch of calculate_trading_PnL: when
br.signal_vol_adjust is True, default the resample attributes onto br if
absent, compute the per-asset leverage and scale the signal by it
element-wise.  A None leverage frame (pre-resample frequency set) makes the
subsequent signal_df.values * leverage_df.values raise AttributeError. -/
def signalVolStep (sq : ℚ → ℚ) (br : BacktestRequest) (signal_f returns_df : Frame) :
    Except String (Frame × BacktestRequest × Option Frame) :=
  match br.signal_vol_adjust with
  | some true =>
      let br1 := { br with
        signal_vol_resample_type := some (br.signal_vol_resample_type.getD "mean"),
        signal_vol_resample_freq := some (br.signal_vol_resample_freq.getD none) }
      match calculate_leverage_factor sq returns_df br1.signal_vol_target
          br1.signal_vol_max_leverage br1.signal_vol_periods
          br1.signal_vol_obs_in_year br1.signal_vol_rebalance_freq
          (br1.signal_vol_resample_freq.getD none)
          (br1.signal_vol_resample_type.getD "mean") true 0 with
      | none => .error "AttributeError: NoneType object has no attribute values"
      | some lev => .ok (mulFrames signal_f lev, br1, some lev)
  | _ => .ok (signal_f, br, none)

/-- The portfolio-combination dispatch of calculate_trading_PnL: sum or mean
across the per-asset P&L columns; an absent portfolio_combination attribute
defaults to mean; a present but unrecognized value leaves the local variable
portfolio unassigned, so its first use raises UnboundLocalError. -/
def combineStep (br : BacktestRequest) (pnl : Frame) : Except String Frame :=
  match br.portfolio_combination with
  | some c =>
      if c = "sum" then .ok (portfolioFrame sumRow pnl)
      else if c = "mean" then .ok (portfolioFrame meanRow pnl)
      else .error "UnboundLocalError: local variable portfolio referenced before assignment"
  | none => .ok (portfolioFrame meanRow pnl)

/-- RiskEngine.calculate_vol_adjusted_returns: default the portfolio
resample attributes onto br if absent, compute the portfolio leverage
factor, and re-derive the portfolio stream through the transaction-cost
engine with the leverage series as the signal.  Returns the vol-adjusted
returns, the leverage frame and the post-assignment br. -/
def calculate_vol_adjusted_returns (sq : ℚ → ℚ) (returns_df : Frame)
    (br : BacktestRequest) (returns : Bool) :
    Except String (Frame × Frame × BacktestRequest) :=
  let rdf := if returns then returns_df else calculate_returns_frame returns_df
  let br1 := { br with
    portfolio_vol_resample_type := some (br.portfolio_vol_resample_type.getD "mean"),
    portfolio_vol_resample_freq := some (br.portfolio_vol_resample_freq.getD none) }
  match calculate_leverage_factor sq rdf br1.portfolio_vol_target
      br1.portfolio_vol_max_leverage br1.portfolio_vol_periods
      br1.portfolio_vol_obs_in_year br1.portfolio_vol_rebalance_freq
      (br1.portfolio_vol_resample_freq.getD none)
      (br1.portfolio_vol_resample_type.getD "mean") true 0 with
  | none => .error "AttributeError: NoneType object has no attribute values"
  | some lev =>
      let vol_returns :=
        { calculate_signal_returns_with_tc_matrix br1.spot_tc_bp lev rdf with
          cols := rdf.cols }
      .ok (vol_returns, lev, br1)

/-- The portfolio-level vol-target branch of calculate_trading_PnL: when
br.portfolio_vol_adjust is True the portfolio stream and the ones leverage
frame are replaced via calculate_vol_adjusted_returns. -/
def portfolioVolStep (sq : ℚ → ℚ) (br : BacktestRequest) (portfolio ones : Frame) :
    Except String (Frame × Frame × BacktestRequest) :=
  match br.portfolio_vol_adjust with
  | some true => calculate_vol_adjusted_returns sq portfolio br true
  | _ => .ok (portfolio, ones, br)

/-- The second portfolio_combination dispatch: divide the final portfolio
signal by the asset count under mean combination (or when the attribute is
absent); a present unrecognized value falls through both branches leaving
the frame unscaled (that path is unreachable on success because the first
dispatch already raised). -/
def scaleCombination (br : BacktestRequest) (n : ℕ) (psig : Frame) : Frame :=
  match br.portfolio_combination with
  | some c =>
      if c = "sum" then psig
      else if c = "mean" then divFrameScalar psig n
      else psig
  | none => divFrameScalar psig n

/-- The aligned, holiday-masked, forward-filled signal of
calculate_trading_PnL (its local signal_df after the three cleaning steps). -/
def engineSignalF (asset_a_df signal_df0 : Frame) : Frame :=
  ffillFrame (maskFrame (reindexFrame signal_df0 asset_a_df.dates) asset_a_df)

/-- The returns frame of calculate_trading_PnL: simple returns of the
forward-filled asset prices (its local returns_df). -/
def engineReturns (asset_a_df : Frame) : Frame :=
  calculate_returns_frame (ffillFrame asset_a_df)

/-- The per-asset P&L frame of calculate_trading_PnL (its local _pnl):
transaction-cost matrix of the final signal against the asset returns, with
columns renamed "asset / signal". -/
def enginePnlFrame (tc : ℚ) (signal_d asset_a_df signal_df0 : Frame) : Frame :=
  { calculate_signal_returns_with_tc_matrix tc signal_d (engineReturns asset_a_df) with
    cols := List.zipWith (fun a s => a ++ " / " ++ s)
      (engineReturns asset_a_df).cols (engineSignalF asset_a_df signal_df0).cols }

/-- Backtest.calculate_trading_PnL: align signal onto the asset index, NaN
the signal on asset holidays, forward-fill both, compute returns, optionally
scale the signal by per-asset leverage, compute the transaction-cost P&L
matrix, combine into the portfolio stream, optionally vol-adjust the
portfolio, and derive the final portfolio position signal.  The pandas mask
call raises when the two frames disagree in column cardinality. -/
def calculate_trading_PnL (sq : ℚ → ℚ) (br : BacktestRequest)
    (asset_a_df signal_df0 : Frame) : Except String BacktestOutput :=
  if asset_a_df.data.length = (reindexFrame signal_df0 asset_a_df.dates).data.length then
    match signalVolStep sq br (engineSignalF asset_a_df signal_df0)
        (engineReturns asset_a_df) with
    | .error e => .error e
    | .ok (signal_d, br1, ilev) =>
        let pnl1 := enginePnlFrame br1.spot_tc_bp signal_d asset_a_df signal_df0
        match combineStep br1 pnl1 with
        | .error e => .error e
        | .ok portfolio0 =>
            match portfolioVolStep sq br1 portfolio0 (onesFrame pnl1.dates) with
            | .error e => .error e
            | .ok (portfolio1, plev, br2) =>
                .ok { br' := br2, pnl := pnl1, portfolio := portfolio1,
                      portfolio_leverage := plev, signal := signal_d,
                      portfolio_signal := scaleCombination br2 signal_d.data.length
                        (portfolioSignalFrame plev signal_d),
                      individual_leverage := ilev }
  else .error "ValueError: Array conditional must be same shape as self"

instance (F : Frame) : Decidable F.WF :=
  inferInstanceAs (Decidable (∀ col ∈ F.data, col.length = F.dates.length))

/-- Did the call return normally (no exception)? -/
def runOk (e : Except String BacktestOutput) : Bool :=
  match e with
  | .ok _ => true
  | .error _ => false

/-- The output of a normal return (default on the exception paths). -/
def runOut (e : Except String BacktestOutput) : BacktestOutput :=
  match e with
  | .ok o => o
  | .error _ => default

/-- The value behind an optional leverage frame (default when None). -/
def frameD (o : Option Frame) : Frame := o.getD default

/-! ### Basic lemmas about the embedded arithmetic and column access -/

theorem PVal.nan_mul (x : PVal) : PVal.mul .nan x = .nan := by cases x <;> rfl

theorem PVal.mul_nan (x : PVal) : PVal.mul x .nan = .nan := by cases x <;> rfl

theorem PVal.nan_add (x : PVal) : PVal.add .nan x = .nan := by cases x <;> rfl

theorem PVal.add_nan (x : PVal) : PVal.add x .nan = .nan := by cases x <;> rfl

theorem PVal.sub_nan (x : PVal) : PVal.sub x .nan = .nan := by
  cases x <;> rfl

theorem PVal.nan_sub (x : PVal) : PVal.sub .nan x = .nan := by
  cases x <;> rfl

theorem getP_nil (t : ℕ) : getP [] t = PVal.nan := by
  cases t <;> rfl

theorem getP_ge {xs : List PVal} {t : ℕ} (h : xs.length ≤ t) : getP xs t = PVal.nan := by
  simp [getP, List.getD, List.getElem?_eq_none h]

theorem getP_range_map (f : ℕ → PVal) {n t : ℕ} (h : t < n) :
    getP ((List.range n).map f) t = f t := by
  simp [getP, List.getD, List.getElem?_map, List.getElem?_range h]

theorem getD_ge {α : Type} {l : List α} {j : ℕ} (d : α) (h : l.length ≤ j) :
    l.getD j d = d := by
  simp [List.getD, List.getElem?_eq_none h]

theorem getD_map_lt {α β : Type} (f : α → β) {l : List α} {j : ℕ}
    (h : j < l.length) (d : α) (d' : β) : (l.map f).getD j d' = f (l.getD j d) := by
  induction l generalizing j with
  | nil => simp at h
  | cons x r ih =>
      cases j with
      | zero => rfl
      | succ j' => exact ih (by simpa using h) 

theorem getD_zipWith_lt {α β γ : Type} (f : α → β → γ) {as : List α} {bs : List β}
    {j : ℕ} (h1 : j < as.length) (h2 : j < bs.length) (da : α) (db : β) (dc : γ) :
    (List.zipWith f as bs).getD j dc = f (as.getD j da) (bs.getD j db) := by
  induction as generalizing bs j with
  | nil => simp at h1
  | cons a ar ih =>
      cases bs with
      | nil => simp at h2
      | cons b br =>
          cases j with
          | zero => rfl
          | succ j' => exact ih (by simpa using h1) (by simpa using h2)

theorem getP_zipWith (f : PVal → PVal → PVal) (as bs : List PVal) (t : ℕ) :
    getP (List.zipWith f as bs) t =
      if t < as.length ∧ t < bs.length then f (getP as t) (getP bs t) else PVal.nan := by
  by_cases h : t < as.length ∧ t < bs.length
  · rw [if_pos h]
    exact getD_zipWith_lt f h.1 h.2 PVal.nan PVal.nan PVal.nan
  · rw [if_neg h]
    apply getP_ge
    rw [List.length_zipWith]
    rcases Nat.lt_or_ge t as.length with h1 | h1
    · rcases Nat.lt_or_ge t bs.length with h2 | h2
      · exact absurd ⟨h1, h2⟩ h
      · exact le_trans (min_le_right _ _) h2
    · exact le_trans (min_le_left _ _) h1

theorem getP_replicate {n t : ℕ} (v : PVal) (h : t < n) :
    getP (List.replicate n v) t = v := by
  simp [getP, List.getD, List.getElem?_replicate, h]

theorem length_ffillGo (last : PVal) (xs : List PVal) :
    (ffillGo last xs).length = xs.length := by
  induction xs generalizing last with
  | nil => rfl
  | cons x r ih => simp [ffillGo, ih]

theorem length_ffillCol (xs : List PVal) : (ffillCol xs).length = xs.length :=
  length_ffillGo _ xs

theorem length_returnsCol (xs : List PVal) : (returnsCol xs).length = xs.length := by
  simp [returnsCol]

theorem length_forceFirstNaN (p : ℕ) (xs : List PVal) :
    (forceFirstNaN p xs).length = xs.length := by
  simp [forceFirstNaN]

theorem length_capLeverage (m : ℚ) (xs : List PVal) :
    (capLeverage m xs).length = xs.length := by
  simp [capLeverage]

theorem length_resampleCol (sizes : List ℕ) (xs : List PVal) :
    (resampleCol sizes xs).length = xs.length := by
  induction sizes generalizing xs with
  | nil => simp [resampleCol]
  | cons k rest ih =>
      simp only [resampleCol, List.length_append, List.length_map, List.length_range,
        List.length_take, ih, List.length_drop]
      omega

theorem length_rolling_volatility_col (sq : ℚ → ℚ) (p obsY : ℕ) (xs : List PVal) :
    (rolling_volatility_col sq p obsY xs).length = xs.length := by
  simp [rolling_volatility_col]

theorem shiftCol_zero (xs : List PVal) : shiftCol 0 xs = xs := by
  simp [shiftCol]

/-! ### Forward-fill characterization -/

theorem getP_ffillGo (last : PVal) (xs : List PVal) {t : ℕ} (h : t < xs.length) :
    getP (ffillGo last xs) t =
      (xs.take (t + 1)).foldl (fun a x => if x.isNaN then a else x) last := by
  induction xs generalizing last t with
  | nil => simp at h
  | cons x r ih =>
      cases t with
      | zero =>
          simp only [ffillGo, List.take, List.foldl]
          rfl
      | succ t' =>
          simp only [ffillGo, List.take, List.foldl]
          exact ih (if x.isNaN then last else x) (by simpa using h)

theorem foldl_ffill_pred (P : PVal → Prop) {acc : PVal} {l : List PVal}
    (hacc : P acc) (hl : ∀ x ∈ l, P x) :
    P (l.foldl (fun a x => if x.isNaN then a else x) acc) := by
  induction l generalizing acc with
  | nil => exact hacc
  | cons x r ih =>
      simp only [List.foldl]
      apply ih
      · by_cases hx : x.isNaN = true
        · simpa [hx] using hacc
        · have := hl x (by simp)
          simp only [hx]
          simpa [hx] using this
      · exact fun y hy => hl y (by simp [hy])

theorem foldl_ffill_eq {v : PVal} (hv : v.isNaN = false) {acc : PVal} {l : List PVal}
    (hl : ∀ x ∈ l, x = PVal.nan ∨ x = v)
    (hsome : acc = v ∨ ∃ x ∈ l, x = v) :
    l.foldl (fun a x => if x.isNaN then a else x) acc = v := by
  induction l generalizing acc with
  | nil =>
      rcases hsome with h | ⟨x, hx, _⟩
      · exact h
      · simp at hx
  | cons x r ih =>
      simp only [List.foldl]
      rcases hl x (by simp) with hx | hx
      · subst hx
        simp only [PVal.isNaN, if_pos]
        apply ih (fun y hy => hl y (by simp [hy]))
        rcases hsome with h | ⟨y, hy, hyv⟩
        · exact Or.inl h
        · rcases List.mem_cons.mp hy with rfl | hy'
          · exact absurd hyv (by intro hh; rw [← hh] at hv; simp [PVal.isNaN] at hv)
          · exact Or.inr ⟨y, hy', hyv⟩
      · subst hx
        rw [if_neg (by simp [hv])]
        exact ih (fun y hy => hl y (by simp [hy])) (Or.inl rfl)

/-! ### Range invariant for the leverage pipeline -/

/-- Every cell is NaN or a finite value within [0, m]. -/
def GoodL (m : ℚ) (xs : List PVal) : Prop :=
  ∀ x ∈ xs, x = PVal.nan ∨ ∃ q : ℚ, x = PVal.val q ∧ 0 ≤ q ∧ q ≤ m

/-- Every cell is NaN or a nonnegative finite value. -/
def NonnegL (xs : List PVal) : Prop :=
  ∀ x ∈ xs, x = PVal.nan ∨ ∃ q : ℚ, x = PVal.val q ∧ 0 ≤ q

theorem rolling_volatility_nonneg (sq : ℚ → ℚ) (hsq : ∀ q, 0 ≤ sq q)
    (p obsY : ℕ) (xs : List PVal) : NonnegL (rolling_volatility_col sq p obsY xs) := by
  intro x hx
  simp only [rolling_volatility_col, List.mem_map, List.mem_range] at hx
  obtain ⟨t, -, rfl⟩ := hx
  by_cases hb : t + 1 < p ∨ p < 2
  · simp [hb]
  · rw [if_neg hb]
    cases hw : finVals? (windowAt xs t p) with
    | none => simp
    | some qs =>
        refine Or.inr ⟨sq (sampleVar qs) * sq (obsY : ℚ), rfl, ?_⟩
        exact mul_nonneg (hsq _) (hsq _)

theorem shiftCol_mem {n : ℕ} {xs : List PVal} {x : PVal} (hx : x ∈ shiftCol n xs) :
    x = PVal.nan ∨ x ∈ xs := by
  simp only [shiftCol, List.mem_append, List.mem_replicate] at hx
  rcases hx with ⟨-, rfl⟩ | hx
  · exact Or.inl rfl
  · exact Or.inr (List.mem_of_mem_take hx)

theorem cap_raw_good {vt m : ℚ} (hvt : 0 < vt) (hm : 0 ≤ m) {vol : List PVal}
    (hvol : NonnegL vol) :
    GoodL m (capLeverage m (vol.map fun v => PVal.div (PVal.val vt) v)) := by
  intro x hx
  simp only [capLeverage, List.mem_map] at hx
  obtain ⟨y, ⟨v, hv, rfl⟩, rfl⟩ := hx
  rcases hvol v hv with rfl | ⟨q, rfl, hq⟩
  · simp only [PVal.div]
    simp [PVal.lt]
  · simp only [PVal.div]
    by_cases hq0 : q = 0
    · subst hq0
      simp only [if_pos rfl, if_pos hvt]
      simp [PVal.lt, hm]
    · have hqpos : 0 < q := lt_of_le_of_ne hq (Ne.symm hq0)
      rw [if_neg hq0]
      by_cases hcmp : PVal.lt (PVal.val m) (PVal.val (vt / q)) = true
      · simp only [hcmp, if_pos]
        exact Or.inr ⟨m, rfl, hm, le_refl m⟩
      · simp only [hcmp]
        simp only [Bool.false_eq_true, if_false]
        refine Or.inr ⟨vt / q, rfl, le_of_lt (div_pos hvt hqpos), ?_⟩
        simp only [PVal.lt, decide_eq_true_eq] at hcmp
        exact le_of_not_lt hcmp

theorem meanRow_good {m : ℚ} {row : List PVal} (hm : 0 ≤ m) (hrow : GoodL m row) :
    meanRow row = PVal.nan ∨ ∃ q : ℚ, meanRow row = PVal.val q ∧ 0 ≤ q ∧ q ≤ m := by
  have hpinf : row.any PVal.isPinf = false := by
    rw [Bool.eq_false_iff]
    intro hh
    obtain ⟨x, hx, hpx⟩ := List.any_eq_true.mp hh
    rcases hrow x hx with rfl | ⟨q, rfl, -⟩ <;> simp [PVal.isPinf] at hpx
  have hninf : row.any PVal.isNinf = false := by
    rw [Bool.eq_false_iff]
    intro hh
    obtain ⟨x, hx, hpx⟩ := List.any_eq_true.mp hh
    rcases hrow x hx with rfl | ⟨q, rfl, -⟩ <;> simp [PVal.isNinf] at hpx
  simp only [meanRow, hpinf, hninf, Bool.false_and, Bool.false_eq_true, if_false]
  set fs := row.filterMap
    (fun x => match x with | PVal.val q => some q | _ => none) with hfs
  have hmem : ∀ q ∈ fs, 0 ≤ q ∧ q ≤ m := by
    intro q hq
    rw [hfs, List.mem_filterMap] at hq
    obtain ⟨x, hx, hxq⟩ := hq
    rcases hrow x hx with rfl | ⟨q', rfl, hq1, hq2⟩
    · simp at hxq
    · simp only at hxq
      obtain rfl : q' = q := by injection hxq
      exact ⟨hq1, hq2⟩
  by_cases hempty : fs.isEmpty = true
  · simp [hempty]
  · simp only [hempty, Bool.false_eq_true, if_false]
    refine Or.inr ⟨fs.sum / fs.length, rfl, ?_, ?_⟩
    · apply div_nonneg
      · exact List.sum_nonneg fun q hq => (hmem q hq).1
      · positivity
    · have hne : fs ≠ [] := fun hh => hempty (by simp [hh])
      have hlen : 0 < fs.length := List.length_pos.mpr hne
      rw [div_le_iff₀ (by exact_mod_cast hlen)]
      calc fs.sum ≤ fs.length • m := List.sum_le_card_nsmul fs m fun q hq => (hmem q hq).2
        _ = fs.length * m := nsmul_eq_mul _ _
        _ = m * fs.length := mul_comm _ _

theorem resample_good {m : ℚ} (sizes : List ℕ) {xs : List PVal} (hm : 0 ≤ m)
    (hxs : GoodL m xs) : GoodL m (resampleCol sizes xs) := by
  induction sizes generalizing xs with
  | nil =>
      intro x hx
      simp only [resampleCol, List.mem_map] at hx
      obtain ⟨-, -, rfl⟩ := hx
      exact Or.inl rfl
  | cons k rest ih =>
      intro x hx
      simp only [resampleCol, List.mem_append, List.mem_map, List.mem_range] at hx
      rcases hx with ⟨i, -, rfl⟩ | hx
      · by_cases hik : i + 1 = k
        · simp only [hik, if_pos]
          exact meanRow_good hm fun y hy => hxs y (List.mem_of_mem_take hy)
        · simp [hik]
      · exact ih (fun y hy => hxs y (List.mem_of_mem_drop hy)) x hx

theorem ffill_good {m : ℚ} {acc : PVal} {xs : List PVal}
    (hacc : acc = PVal.nan ∨ ∃ q : ℚ, acc = PVal.val q ∧ 0 ≤ q ∧ q ≤ m)
    (hxs : GoodL m xs) : GoodL m (ffillGo acc xs) := by
  induction xs generalizing acc with
  | nil => intro x hx; simp [ffillGo] at hx
  | cons x r ih =>
      intro y hy
      simp only [ffillGo, List.mem_cons] at hy
      have hval : (if x.isNaN then acc else x) = PVal.nan ∨
          ∃ q : ℚ, (if x.isNaN then acc else x) = PVal.val q ∧ 0 ≤ q ∧ q ≤ m := by
        by_cases hx : x.isNaN = true
        · simpa [hx] using hacc
        · simpa [hx] using hxs x (by simp)
      rcases hy with rfl | hy
      · exact hval
      · exact ih hval (fun z hz => hxs z (by simp [hz])) y hy

theorem force_good {m : ℚ} (p : ℕ) {xs : List PVal} (hxs : GoodL m xs) :
    GoodL m (forceFirstNaN p xs) := by
  intro x hx
  simp only [forceFirstNaN, List.mem_map, List.mem_range] at hx
  obtain ⟨t, ht, rfl⟩ := hx
  by_cases htp : t < p
  · simp [htp]
  · simp only [htp, Bool.false_eq_true, if_false]
    have : getP xs t = PVal.nan ∨ getP xs t ∈ xs := by
      rcases Nat.lt_or_ge t xs.length with h | h
      · exact Or.inr (by simpa [getP, List.getD, List.getElem?_eq_getElem h]
          using List.getElem_mem h)
      · exact Or.inl (getP_ge h)
    rcases this with h | h
    · exact Or.inl h
    · exact hxs _ h

theorem getP_good {m : ℚ} {xs : List PVal} (hxs : GoodL m xs) (t : ℕ) :
    getP xs t = PVal.nan ∨ ∃ q : ℚ, getP xs t = PVal.val q ∧ 0 ≤ q ∧ q ≤ m := by
  rcases Nat.lt_or_ge t xs.length with h | h
  · exact hxs _ (by simpa [getP, List.getD, List.getElem?_eq_getElem h]
      using List.getElem_mem h)
  · exact Or.inl (getP_ge h)

/-! ### Constant return series: zero volatility -/

theorem sampleVar_replicate {p : ℕ} (hp : p ≠ 0) (c : ℚ) :
    sampleVar (List.replicate p c) = 0 := by
  simp only [sampleVar, List.length_replicate, List.sum_replicate, nsmul_eq_mul]
  have hpq : (p : ℚ) ≠ 0 := Nat.cast_ne_zero.mpr hp
  have hmean : (p : ℚ) * c / p = c := by field_simp
  rw [hmean]
  have : (List.replicate p c).map (fun x => (x - c) ^ 2) = List.replicate p 0 := by
    rw [List.map_replicate]
    simp
  rw [this, List.sum_replicate]
  simp

theorem windowAt_replicate {n t p : ℕ} (c : ℚ) (hp : p ≤ t + 1) (ht : t < n) :
    windowAt (List.replicate n (PVal.val c)) t p = List.replicate p (PVal.val c) := by
  rw [List.eq_replicate_iff]
  constructor
  · simp [windowAt]
  · intro b hb
    simp only [windowAt, List.mem_map, List.mem_range] at hb
    obtain ⟨i, hi, rfl⟩ := hb
    apply getP_replicate
    omega

theorem finVals_replicate (p : ℕ) (c : ℚ) :
    finVals? (List.replicate p (PVal.val c)) = some (List.replicate p c) := by
  induction p with
  | zero => rfl
  | succ p' ih =>
      simp [List.replicate_succ, finVals?, ih]

theorem rolling_volatility_replicate (sq : ℚ → ℚ) (hsq0 : sq 0 = 0)
    {p : ℕ} (hp : 2 ≤ p) (obsY n : ℕ) (c : ℚ) :
    rolling_volatility_col sq p obsY (List.replicate n (PVal.val c)) =
      (List.range n).map fun t => if t + 1 < p then PVal.nan else PVal.val 0 := by
  simp only [rolling_volatility_col, List.length_replicate]
  apply List.map_congr_left
  intro t ht
  rw [List.mem_range] at ht
  by_cases htp : t + 1 < p
  · simp [htp]
  · rw [if_neg (not_or.mpr ⟨htp, by omega⟩), if_neg htp,
      windowAt_replicate c (le_of_not_lt htp) ht, finVals_replicate]
    simp [sampleVar_replicate (show p ≠ 0 by omega) c, hsq0]

theorem meanRow_single_nan : meanRow [PVal.nan] = PVal.nan := by
  simp [meanRow, PVal.isPinf, PVal.isNinf]

theorem meanRow_single_val (q : ℚ) : meanRow [PVal.val q] = PVal.val q := by
  simp [meanRow, PVal.isPinf, PVal.isNinf]

theorem resampleCol_nil (sizes : List ℕ) : resampleCol sizes [] = [] := by
  induction sizes with
  | nil => rfl
  | cons k rest ih => simp [resampleCol, ih]

theorem resampleCol_ones {xs : List PVal} {m : ℕ} (hm : xs.length ≤ m) :
    resampleCol (List.replicate m 1) xs = xs.map fun x => meanRow [x] := by
  induction xs generalizing m with
  | nil => simp [resampleCol_nil]
  | cons x r ih =>
      cases m with
      | zero => simp at hm
      | succ m' =>
          simp only [List.replicate_succ, resampleCol, List.take_succ_cons,
            List.take_zero, List.drop_succ_cons, List.drop_zero, List.map_cons]
          rw [ih (by simpa using hm)]
          rfl

/-! ### The specification-side formulas the claims quantify over -/

/-- Written from the claim: the per-asset P&L at time t is the previous
period's position times the asset's simple return at t, minus
transaction_cost_bp times the absolute change in position
|position t - position (t-1)|; the first observation has no prior position
and is NaN. -/
def spec_pnl_value (position ret : List PVal) (tc : ℚ) (t : ℕ) : PVal :=
  PVal.sub (PVal.mul (prevP position t) (getP ret t))
           (PVal.mul (PVal.pabs (PVal.sub (getP position t) (prevP position t))) (PVal.val tc))

/-- Written from the claim: the arithmetic mean of all N per-asset cells of
a row (NaN-propagating: the mean of N values, one of which is NaN, is NaN). -/
def specArithMeanRow (row : List PVal) : PVal :=
  PVal.div (row.foldl PVal.add (PVal.val 0)) (PVal.val row.length)

theorem spec_pnl_value_zero (position ret : List PVal) (tc : ℚ) :
    spec_pnl_value position ret tc 0 = PVal.nan := by
  simp [spec_pnl_value, prevP, PVal.nan_mul, PVal.sub_nan, PVal.nan_sub, PVal.pabs]

theorem tc_col_spec (tc : ℚ) (sig ret : List PVal) {t : ℕ} (h : t < ret.length) :
    getP (calculate_signal_returns_with_tc_col tc sig ret) t =
      spec_pnl_value sig ret tc t := by
  rw [calculate_signal_returns_with_tc_col, getP_range_map _ h]
  rfl

/-! ### Success-path characterizations -/

theorem calculate_leverage_factor_some {sq : ℚ → ℚ} {F : Frame} {vt ml : ℚ}
    {p obsY : ℕ} {buckets : List ℕ} {freq : Option String} {ty : String}
    {rets : Bool} {shift : ℕ} {lev : Frame}
    (h : calculate_leverage_factor sq F vt ml p obsY buckets freq ty rets shift
      = some lev) :
    freq = none ∧
    lev = (let rdf := if rets then F else calculate_returns_frame F
           { dates := rdf.dates, cols := rdf.cols,
             data := rdf.data.map fun col =>
               forceFirstNaN p (ffillCol (resampleCol buckets
                 (capLeverage ml ((shiftCol shift
                    (rolling_volatility_col sq p obsY col)).map
                   fun v => PVal.div (PVal.val vt) v)))) }) := by
  rw [calculate_leverage_factor] at h
  split at h
  · exact absurd h (by simp)
  · refine ⟨?_, ?_⟩
    · cases freq with
      | none => rfl
      | some f => simp_all
    · injection h with h'
      exact h'.symm

theorem engine_ok_elim {sq : ℚ → ℚ} {br : BacktestRequest} {a s : Frame}
    {o : BacktestOutput} (hok : calculate_trading_PnL sq br a s = .ok o) :
    ∃ (sd : Frame) (br1 : BacktestRequest) (il : Option Frame)
      (port0 port1 plev : Frame) (br2 : BacktestRequest),
      a.data.length = (reindexFrame s a.dates).data.length ∧
      signalVolStep sq br (engineSignalF a s) (engineReturns a) = .ok (sd, br1, il) ∧
      combineStep br1 (enginePnlFrame br1.spot_tc_bp sd a s) = .ok port0 ∧
      portfolioVolStep sq br1 port0
        (onesFrame (enginePnlFrame br1.spot_tc_bp sd a s).dates) =
        .ok (port1, plev, br2) ∧
      o = { br' := br2, pnl := enginePnlFrame br1.spot_tc_bp sd a s,
            portfolio := port1, portfolio_leverage := plev, signal := sd,
            portfolio_signal := scaleCombination br2 sd.data.length
              (portfolioSignalFrame plev sd),
            individual_leverage := il } := by
  rw [calculate_trading_PnL] at hok
  split at hok
  case isFalse => exact absurd hok (by simp)
  case isTrue hc =>
    split at hok
    case h_1 => exact absurd hok (by simp)
    case h_2 sd br1 il hsvs =>
      simp only [] at hok
      split at hok
      case h_1 => exact absurd hok (by simp)
      case h_2 port0 hcomb =>
        split at hok
        case h_1 => exact absurd hok (by simp)
        case h_2 port1 plev br2 hpvs =>
          injection hok with h'
          exact ⟨sd, br1, il, port0, port1, plev, br2, hc, hsvs, hcomb, hpvs, h'.symm⟩

theorem signalVolStep_ok_elim {sq : ℚ → ℚ} {br : BacktestRequest} {f r : Frame}
    {sd : Frame} {br1 : BacktestRequest} {il : Option Frame}
    (h : signalVolStep sq br f r = .ok (sd, br1, il)) :
    (br.signal_vol_adjust = some true ∧
      br1 = { br with
        signal_vol_resample_type := some (br.signal_vol_resample_type.getD "mean"),
        signal_vol_resample_freq := some (br.signal_vol_resample_freq.getD none) } ∧
      ∃ lev : Frame,
        calculate_leverage_factor sq r br.signal_vol_target
          br.signal_vol_max_leverage br.signal_vol_periods
          br.signal_vol_obs_in_year br.signal_vol_rebalance_freq
          (br.signal_vol_resample_freq.getD none)
          (br.signal_vol_resample_type.getD "mean") true 0 = some lev ∧
        sd = mulFrames f lev ∧ il = some lev) ∨
    (br.signal_vol_adjust ≠ some true ∧ sd = f ∧ br1 = br ∧ il = none) := by
  rw [signalVolStep] at h
  split at h
  case h_1 hadj =>
    simp only [] at h
    split at h
    case h_1 => exact absurd h (by simp)
    case h_2 lev hlev =>
      injection h with h'
      injection h' with ha h'
      injection h' with hb hc
      exact Or.inl ⟨hadj, hb.symm, lev, hlev, ha.symm, hc.symm⟩
  case h_2 hne =>
    injection h with h'
    injection h' with ha h'
    injection h' with hb hc
    refine Or.inr ⟨?_, ha.symm, hb.symm, hc.symm⟩
    intro hcontra
    exact hne hcontra

theorem signalVolStep_br1 {sq : ℚ → ℚ} {br : BacktestRequest} {f r : Frame}
    {sd : Frame} {br1 : BacktestRequest} {il : Option Frame}
    (h : signalVolStep sq br f r = .ok (sd, br1, il)) :
    br1.spot_tc_bp = br.spot_tc_bp ∧
    br1.portfolio_combination = br.portfolio_combination ∧
    br1.portfolio_vol_adjust = br.portfolio_vol_adjust := by
  rcases signalVolStep_ok_elim h with ⟨-, rfl, -⟩ | ⟨-, -, rfl, -⟩ <;>
    exact ⟨rfl, rfl, rfl⟩

theorem data_length_reindex (s : Frame) (d : List ℤ) :
    (reindexFrame s d).data.length = s.data.length := by
  simp [reindexFrame]

theorem data_length_engineReturns (a : Frame) :
    (engineReturns a).data.length = a.data.length := by
  simp [engineReturns, calculate_returns_frame, ffillFrame]

theorem data_length_engineSignalF (a s : Frame) :
    (engineSignalF a s).data.length = min s.data.length a.data.length := by
  simp [engineSignalF, ffillFrame, maskFrame, reindexFrame]

theorem mulFrames_data_length (f lev : Frame) :
    (mulFrames f lev).data.length = min f.data.length lev.data.length := by
  simp [mulFrames]

theorem lev_factor_data_length {sq : ℚ → ℚ} {F : Frame} {vt ml : ℚ}
    {p obsY : ℕ} {buckets : List ℕ} {freq : Option String} {ty : String}
    {shift : ℕ} {lev : Frame}
    (h : calculate_leverage_factor sq F vt ml p obsY buckets freq ty true shift
      = some lev) : lev.data.length = F.data.length := by
  rw [(calculate_leverage_factor_some h).2]
  simp

theorem signalVolStep_ok_ncols {sq : ℚ → ℚ} {br : BacktestRequest} {f r : Frame}
    {sd : Frame} {br1 : BacktestRequest} {il : Option Frame}
    (h : signalVolStep sq br f r = .ok (sd, br1, il)) :
    sd.data.length = f.data.length ∨
    sd.data.length = min f.data.length r.data.length := by
  rcases signalVolStep_ok_elim h with ⟨-, -, lev, hlev, rfl, -⟩ | ⟨-, rfl, -⟩
  · right
    rw [mulFrames_data_length, lev_factor_data_length hlev]
  · exact Or.inl rfl

theorem engineReturns_colD (a : Frame) {j : ℕ} (hj : j < a.data.length) :
    (engineReturns a).colD j = returnsCol (ffillCol (a.colD j)) := by
  simp only [engineReturns, calculate_returns_frame, ffillFrame, Frame.colD]
  rw [getD_map_lt _ (by simpa using hj) [], getD_map_lt _ hj []]

theorem enginePnlFrame_data (tc : ℚ) (sd a s : Frame) :
    (enginePnlFrame tc sd a s).data =
      List.zipWith (calculate_signal_returns_with_tc_col tc) sd.data
        (engineReturns a).data := rfl

theorem enginePnlFrame_dates (tc : ℚ) (sd a s : Frame) :
    (enginePnlFrame tc sd a s).dates = sd.dates := rfl

theorem enginePnlFrame_colD (tc : ℚ) (sd a s : Frame) {j : ℕ}
    (h1 : j < sd.data.length) (h2 : j < (engineReturns a).data.length) :
    (enginePnlFrame tc sd a s).colD j =
      calculate_signal_returns_with_tc_col tc (sd.colD j) ((engineReturns a).colD j) := by
  simp only [Frame.colD, enginePnlFrame_data]
  exact getD_zipWith_lt _ h1 h2 [] [] []

/-- C1: for every configuration and aligned price/signal pair accepted by
calculate_trading_PnL and every asset column, the per-asset P&L at every
in-range time t equals the previous period's position (the possibly
leverage-scaled signal lagged by one period) times the asset's simple
return at t, minus spot_tc_bp times the absolute change in position, and
the first observation's P&L is NaN. -/
theorem C1_per_asset_pnl_formula {sq : ℚ → ℚ} {br : BacktestRequest}
    {a s : Frame} {o : BacktestOutput}
    (hok : calculate_trading_PnL sq br a s = .ok o) {j t : ℕ}
    (hj : j < a.data.length) (ht : t < (a.colD j).length) :
    getP (o.pnl.colD j) t =
      spec_pnl_value (o.signal.colD j) ((engineReturns a).colD j) br.spot_tc_bp t ∧
    getP (o.pnl.colD j) 0 = PVal.nan := by
  obtain ⟨sd, br1, il, p0, p1, plev, br2, hc, hsvs, hcomb, hpvs, rfl⟩ :=
    engine_ok_elim hok
  rw [data_length_reindex] at hc
  have hflen : (engineSignalF a s).data.length = a.data.length := by
    rw [data_length_engineSignalF, ← hc, Nat.min_self]
  have hrlen : (engineReturns a).data.length = a.data.length :=
    data_length_engineReturns a
  have hsdlen : sd.data.length = a.data.length := by
    rcases signalVolStep_ok_ncols hsvs with h | h
    · rw [h, hflen]
    · rw [h, hflen, hrlen, Nat.min_self]
  have hjs : j < sd.data.length := by rw [hsdlen]; exact hj
  have hjr : j < (engineReturns a).data.length := by rw [hrlen]; exact hj
  have htc : br1.spot_tc_bp = br.spot_tc_bp := (signalVolStep_br1 hsvs).1
  have hcol := enginePnlFrame_colD br1.spot_tc_bp sd a s hjs hjr
  have hretlen : t < ((engineReturns a).colD j).length := by
    rw [engineReturns_colD a hj, length_returnsCol, length_ffillCol]
    exact ht
  constructor
  · dsimp only
    rw [hcol, tc_col_spec _ _ _ hretlen, htc]
  · dsimp only
    rw [hcol, tc_col_spec _ _ _ (lt_of_le_of_lt (Nat.zero_le t) hretlen),
      spec_pnl_value_zero]

/-- C2: after the alignment step of calculate_trading_PnL (left-join
reindex onto the asset dates, then the holiday mask, before any
forward-fill), the signal holds no non-NaN value at any cell where the
corresponding asset price is NaN. -/
theorem C2_alignment_mask_invariant (prices signal : Frame) (j t : ℕ)
    (h : (getP (prices.colD j) t).isNaN = true) :
    (getP ((maskFrame (reindexFrame signal prices.dates) prices).colD j) t).isNaN
      = true := by
  by_cases hj : j < (reindexFrame signal prices.dates).data.length ∧
      j < prices.data.length
  · have hcol : (maskFrame (reindexFrame signal prices.dates) prices).colD j =
        List.zipWith (fun s a => if a.isNaN then PVal.nan else s)
          ((reindexFrame signal prices.dates).colD j) (prices.colD j) := by
      simp only [maskFrame, Frame.colD]
      exact getD_zipWith_lt _ hj.1 hj.2 [] [] []
    rw [hcol, getP_zipWith]
    by_cases hT : t < ((reindexFrame signal prices.dates).colD j).length ∧
        t < (prices.colD j).length
    · rw [if_pos hT]
      simp only [h, if_true]
      rfl
    · rw [if_neg hT]
      rfl
  · have hge : (maskFrame (reindexFrame signal prices.dates) prices).colD j = [] := by
      simp only [maskFrame, Frame.colD]
      apply getD_ge
      rw [List.length_zipWith]
      rcases Nat.lt_or_ge j (reindexFrame signal prices.dates).data.length with h1 | h1
      · rcases Nat.lt_or_ge j prices.data.length with h2 | h2
        · exact absurd ⟨h1, h2⟩ hj
        · exact le_trans (min_le_right _ _) h2
      · exact le_trans (min_le_left _ _) h1
    rw [hge, getP_nil]
    rfl

/-- C3: for every returns frame, positive vol target and positive maximum
leverage, every cell of the leverage series produced by
calculate_leverage_factor is NaN or a finite value in [0, vol_max_leverage]:
leverage is never negative, never infinite, and never exceeds the cap. -/
theorem C3_leverage_bound {sq : ℚ → ℚ} {F : Frame} {vt ml : ℚ}
    {p obsY : ℕ} {buckets : List ℕ} {freq : Option String} {ty : String}
    {rets : Bool} {shift : ℕ} {lev : Frame}
    (hsq : ∀ q : ℚ, 0 ≤ sq q) (hvt : 0 < vt) (hml : 0 < ml)
    (h : calculate_leverage_factor sq F vt ml p obsY buckets freq ty rets shift
      = some lev) (j t : ℕ) :
    getP (lev.colD j) t = PVal.nan ∨
      ∃ q : ℚ, getP (lev.colD j) t = PVal.val q ∧ 0 ≤ q ∧ q ≤ ml := by
  obtain ⟨-, rfl⟩ := calculate_leverage_factor_some h
  dsimp only [Frame.colD]
  by_cases hj : j < (if rets then F else calculate_returns_frame F).data.length
  · rw [getD_map_lt _ hj []]
    apply getP_good
    apply force_good
    apply ffill_good (Or.inl rfl)
    apply resample_good _ (le_of_lt hml)
    apply cap_raw_good hvt (le_of_lt hml)
    intro x hx
    rcases shiftCol_mem hx with rfl | hx'
    · exact Or.inl rfl
    · exact rolling_volatility_nonneg sq hsq p obsY _ x hx'
  · rw [getD_ge _ (le_of_not_lt (by simpa using hj)), getP_nil]
    exact Or.inl rfl

/-- C4: for every returns frame and lookback window length, the first
vol_periods observations of every column of the leverage series produced by
calculate_leverage_factor are NaN, regardless of any value introduced by the
rebalance or forward-fill steps. -/
theorem C4_warmup_nan {sq : ℚ → ℚ} {F : Frame} {vt ml : ℚ}
    {p obsY : ℕ} {buckets : List ℕ} {freq : Option String} {ty : String}
    {rets : Bool} {shift : ℕ} {lev : Frame}
    (h : calculate_leverage_factor sq F vt ml p obsY buckets freq ty rets shift
      = some lev) (j : ℕ) {t : ℕ} (ht : t < p) :
    getP (lev.colD j) t = PVal.nan := by
  obtain ⟨-, rfl⟩ := calculate_leverage_factor_some h
  dsimp only [Frame.colD]
  by_cases hj : j < (if rets then F else calculate_returns_frame F).data.length
  · rw [getD_map_lt _ hj []]
    set ys := ffillCol (resampleCol buckets (capLeverage ml
      ((shiftCol shift (rolling_volatility_col sq p obsY
        ((if rets then F else calculate_returns_frame F).data.getD j []))).map
        fun v => PVal.div (PVal.val vt) v))) with hys
    rcases Nat.lt_or_ge t ys.length with hlt | hge
    · rw [forceFirstNaN, getP_range_map _ hlt, if_pos ht]
    · apply getP_ge
      rw [length_forceFirstNaN]
      exact hge
  · rw [getD_ge _ (le_of_not_lt (by simpa using hj)), getP_nil]

/-- C5 (amended): for a constant returns frame (zero rolling volatility),
positive vol target and a rebalance date at every observation, every
leverage cell of calculate_leverage_factor from the end of the warm-up
window onwards is exactly the cap vol_max_leverage (the division by zero
volatility yields +infinity which the clamp replaces), and no cell of the
series is ever +infinity. -/
theorem C5_constant_returns_clamped {sq : ℚ → ℚ} {F : Frame} {vt ml : ℚ}
    {p obsY n : ℕ} {ty : String} {lev : Frame}
    (hsq0 : sq 0 = 0) (hvt : 0 < vt) (hp : 2 ≤ p)
    (hconst : ∀ col ∈ F.data, ∃ c : ℚ, col = List.replicate n (PVal.val c))
    (h : calculate_leverage_factor sq F vt ml p obsY (List.replicate n 1) none ty
      true 0 = some lev)
    {j : ℕ} (hj : j < F.data.length) :
    (∀ t, p ≤ t → t < n → getP (lev.colD j) t = PVal.val ml) ∧
    (∀ t, getP (lev.colD j) t ≠ PVal.pinf) := by
  obtain ⟨-, rfl⟩ := calculate_leverage_factor_some h
  dsimp only [Frame.colD]
  simp only [eq_self_iff_true, if_true]
  rw [getD_map_lt _ hj []]
  have hmem : F.data.getD j [] ∈ F.data := by
    have hg : F.data.getD j [] = F.data[j] := by
      simp [List.getD, List.getElem?_eq_getElem hj]
    rw [hg]
    exact List.getElem_mem hj
  obtain ⟨c, hc⟩ := hconst _ hmem
  rw [hc, shiftCol_zero, rolling_volatility_replicate sq hsq0 hp obsY n c]
  have hcap : capLeverage ml
      (((List.range n).map fun t => if t + 1 < p then PVal.nan else PVal.val 0).map
        fun v => PVal.div (PVal.val vt) v) =
      (List.range n).map fun t => if t + 1 < p then PVal.nan else PVal.val ml := by
    rw [List.map_map, capLeverage, List.map_map]
    apply List.map_congr_left
    intro t ht0
    by_cases htp : t + 1 < p
    · simp [Function.comp, htp, PVal.div, PVal.lt]
    · simp only [Function.comp, htp, if_false]
      rw [show PVal.div (PVal.val vt) (PVal.val 0) = PVal.pinf from by
        simp [PVal.div, hvt]]
      simp [PVal.lt]
  rw [hcap, resampleCol_ones (by simp)]
  have hres : ((List.range n).map fun t =>
        if t + 1 < p then PVal.nan else PVal.val ml).map (fun x => meanRow [x]) =
      (List.range n).map fun t => if t + 1 < p then PVal.nan else PVal.val ml := by
    rw [List.map_map]
    apply List.map_congr_left
    intro t ht0
    by_cases htp : t + 1 < p
    · simp [Function.comp, htp, meanRow_single_nan]
    · simp [Function.comp, htp, meanRow_single_val]
  rw [hres]
  set L := (List.range n).map fun t => if t + 1 < p then PVal.nan else PVal.val ml
    with hL
  have hLlen : L.length = n := by simp [hL]
  have hylen : (ffillCol L).length = n := by rw [length_ffillCol, hLlen]
  have hLmem : ∀ x ∈ L, x = PVal.nan ∨ x = PVal.val ml := by
    intro x hx
    rw [hL] at hx
    rcases List.mem_map.mp hx with ⟨u, -, rfl⟩
    by_cases hu : u + 1 < p
    · simp [hu]
    · simp [hu]
  constructor
  · intro t hpt htn
    rw [forceFirstNaN, length_ffillCol, hLlen, getP_range_map _ htn,
      if_neg (not_lt.mpr hpt), ffillCol, getP_ffillGo _ _ (by rw [hLlen]; exact htn)]
    have htake : L.take (t + 1) = (List.range (t + 1)).map
        fun u => if u + 1 < p then PVal.nan else PVal.val ml := by
      rw [hL, ← List.map_take, List.take_range, min_eq_left (by omega)]
    rw [htake]
    apply foldl_ffill_eq (v := PVal.val ml) rfl
    · intro x hx
      rcases List.mem_map.mp hx with ⟨u, -, rfl⟩
      by_cases hu : u + 1 < p
      · simp [hu]
      · simp [hu]
    · refine Or.inr ⟨PVal.val ml, ?_, rfl⟩
      refine List.mem_map.mpr ⟨p - 1, List.mem_range.mpr (by omega), ?_⟩
      rw [if_neg (by omega)]
  · intro t
    rcases Nat.lt_or_ge t n with htn | htn
    · rw [forceFirstNaN, length_ffillCol, hLlen, getP_range_map _ htn]
      by_cases htp : t < p
      · rw [if_pos htp]
        exact fun hh => PVal.noConfusion hh
      · rw [if_neg htp, ffillCol, getP_ffillGo _ _ (by rw [hLlen]; exact htn)]
        have hpred := foldl_ffill_pred
          (fun x => x = PVal.nan ∨ x = PVal.val ml) (l := L.take (t + 1))
          (Or.inl rfl) (fun x hx => hLmem x (List.mem_of_mem_take hx))
        rcases hpred with h1 | h1 <;> rw [h1] <;> exact fun hh => PVal.noConfusion hh
    · rw [getP_ge (by rw [length_forceFirstNaN, hylen]; exact htn)]
      exact fun hh => PVal.noConfusion hh

/-! ### Row means and frame shapes for the portfolio claims -/

/-- The finite values of a row, in order. -/
def valsOf (row : List PVal) : List ℚ :=
  row.filterMap fun x => match x with | PVal.val q => some q | _ => none

theorem getP_map_lt (f : PVal → PVal) {xs : List PVal} {t : ℕ} (h : t < xs.length) :
    getP (xs.map f) t = f (getP xs t) := by
  simp [getP, List.getD, List.getElem?_map, List.getElem?_eq_getElem h]

theorem getD_mem {α : Type} {l : List α} {j : ℕ} (h : j < l.length) (d : α) :
    l.getD j d ∈ l := by
  have hg : l.getD j d = l[j] := by simp [List.getD, List.getElem?_eq_getElem h]
  rw [hg]
  exact List.getElem_mem h

theorem colD_length_WF {F : Frame} (hWF : F.WF) {j : ℕ} (hj : j < F.data.length) :
    (F.colD j).length = F.dates.length :=
  hWF _ (getD_mem hj [])

theorem valsOf_all_finite {row : List PVal}
    (hfin : ∀ x ∈ row, ∃ q : ℚ, x = PVal.val q) :
    (valsOf row).length = row.length := by
  induction row with
  | nil => rfl
  | cons x r ih =>
      obtain ⟨q, rfl⟩ := hfin x (by simp)
      have ihr := ih fun y hy => hfin y (by simp [hy])
      simp only [valsOf, List.filterMap_cons] at ihr ⊢
      simp [ihr]

theorem foldl_add_finite (row : List PVal)
    (hfin : ∀ x ∈ row, ∃ q : ℚ, x = PVal.val q) (a : ℚ) :
    row.foldl PVal.add (PVal.val a) = PVal.val (a + (valsOf row).sum) := by
  induction row generalizing a with
  | nil => simp [valsOf]
  | cons x r ih =>
      obtain ⟨q, rfl⟩ := hfin x (by simp)
      simp only [List.foldl]
      rw [show PVal.add (PVal.val a) (PVal.val q) = PVal.val (a + q) from rfl,
        ih (fun y hy => hfin y (by simp [hy])) (a + q)]
      have hv : valsOf (PVal.val q :: r) = q :: valsOf r := by simp [valsOf]
      rw [hv]
      simp only [List.sum_cons]
      ring_nf

theorem PVal.div_val_val_ne {a b : ℚ} (hb : b ≠ 0) :
    PVal.div (PVal.val a) (PVal.val b) = PVal.val (a / b) := by
  simp [PVal.div, hb]

theorem meanRow_eq_specArith {row : List PVal}
    (hfin : ∀ x ∈ row, ∃ q : ℚ, x = PVal.val q) :
    meanRow row = specArithMeanRow row := by
  have hpinf : row.any PVal.isPinf = false := by
    rw [Bool.eq_false_iff]
    intro hh
    obtain ⟨x, hx, hpx⟩ := List.any_eq_true.mp hh
    obtain ⟨q, rfl⟩ := hfin x hx
    simp [PVal.isPinf] at hpx
  have hninf : row.any PVal.isNinf = false := by
    rw [Bool.eq_false_iff]
    intro hh
    obtain ⟨x, hx, hpx⟩ := List.any_eq_true.mp hh
    obtain ⟨q, rfl⟩ := hfin x hx
    simp [PVal.isNinf] at hpx
  rw [specArithMeanRow, foldl_add_finite row hfin 0]
  simp only [meanRow, hpinf, hninf, Bool.false_and, Bool.false_eq_true, if_false]
  cases hrow : row with
  | nil => simp [valsOf, PVal.div]
  | cons x r =>
      subst hrow
      have hlen := valsOf_all_finite hfin
      have hne : ¬(valsOf (x :: r)).isEmpty = true := by
        intro hh
        rw [List.isEmpty_iff] at hh
        rw [hh] at hlen
        simp at hlen
      rw [show (List.filterMap (fun x => match x with
            | PVal.val q => some q | _ => none) (x :: r)) = valsOf (x :: r) from rfl]
      simp only [hne, Bool.false_eq_true, if_false]
      have hb : (((x :: r).length : ℕ) : ℚ) ≠ 0 := by
        rw [Nat.cast_ne_zero]
        simp
      rw [PVal.div_val_val_ne hb, hlen, zero_add]

theorem portfolioFrame_getP (f : List PVal → PVal) (pnl : Frame) {t : ℕ}
    (ht : t < pnl.dates.length) :
    getP ((portfolioFrame f pnl).colD 0) t = f (rowAt pnl t) := by
  show getP ((List.range pnl.dates.length).map fun u => f (rowAt pnl u)) t = _
  rw [getP_range_map _ ht]

theorem onesFrame_colD (dates : List ℤ) :
    (onesFrame dates).colD 0 = List.replicate dates.length (PVal.val 1) := rfl

theorem portfolioVolStep_not_adjusted {sq : ℚ → ℚ} {br : BacktestRequest}
    {port ones p1 plev : Frame} {br2 : BacktestRequest}
    (hpv : br.portfolio_vol_adjust ≠ some true)
    (h : portfolioVolStep sq br port ones = .ok (p1, plev, br2)) :
    p1 = port ∧ plev = ones ∧ br2 = br := by
  rw [portfolioVolStep] at h
  split at h
  case h_1 hadj => exact absurd hadj hpv
  case h_2 =>
    injection h with h'
    exact ⟨(congrArg Prod.fst h').symm, (congrArg (fun z => z.2.1) h').symm,
      (congrArg (fun z => z.2.2) h').symm⟩

theorem combineStep_mean {br : BacktestRequest} {pnl port : Frame}
    (hc : br.portfolio_combination = some "mean")
    (h : combineStep br pnl = .ok port) : port = portfolioFrame meanRow pnl := by
  rw [combineStep, hc] at h
  simp only [] at h
  simp only [if_true] at h
  injection h with h'
  exact h'.symm

theorem combineStep_bad {br : BacktestRequest} {pnl : Frame} {v : String}
    (hc : br.portfolio_combination = some v) (h1 : v ≠ "sum") (h2 : v ≠ "mean") :
    ∀ port, combineStep br pnl ≠ .ok port := by
  intro port h
  rw [combineStep, hc] at h
  simp only [] at h
  rw [if_neg h1, if_neg h2] at h
  exact absurd h (by simp)

theorem reindex_colD_length {s : Frame} {d : List ℤ} {j : ℕ}
    (hj : j < s.data.length) : ((reindexFrame s d).colD j).length = d.length := by
  simp only [reindexFrame, Frame.colD]
  rw [getD_map_lt _ hj []]
  simp

theorem engineSignalF_dates (a s : Frame) : (engineSignalF a s).dates = a.dates := rfl

theorem engineSignalF_colD {a s : Frame} {j : ℕ} (hj1 : j < s.data.length)
    (hj2 : j < a.data.length) :
    (engineSignalF a s).colD j = ffillCol (List.zipWith
      (fun sv av => if av.isNaN then PVal.nan else sv)
      ((reindexFrame s a.dates).colD j) (a.colD j)) := by
  simp only [engineSignalF, ffillFrame, maskFrame, Frame.colD]
  rw [getD_map_lt _ (by
      rw [List.length_zipWith]
      exact lt_min (by simpa [data_length_reindex] using hj1) hj2) [],
    getD_zipWith_lt _ (by simpa [data_length_reindex] using hj1) hj2 [] []]

theorem engineSignalF_col_length {a s : Frame} (hWF : a.WF) {j : ℕ}
    (hj1 : j < s.data.length) (hj2 : j < a.data.length) :
    ((engineSignalF a s).colD j).length = a.dates.length := by
  rw [engineSignalF_colD hj1 hj2, length_ffillCol, List.length_zipWith,
    reindex_colD_length hj1, colD_length_WF hWF hj2, Nat.min_self]

theorem lev_factor_colD {sq : ℚ → ℚ} {F : Frame} {vt ml : ℚ}
    {p obsY : ℕ} {buckets : List ℕ} {freq : Option String} {ty : String}
    {shift : ℕ} {lev : Frame}
    (h : calculate_leverage_factor sq F vt ml p obsY buckets freq ty true shift
      = some lev) {j : ℕ} (hj : j < F.data.length) :
    lev.colD j = forceFirstNaN p (ffillCol (resampleCol buckets
      (capLeverage ml ((shiftCol shift
        (rolling_volatility_col sq p obsY (F.colD j))).map
        fun v => PVal.div (PVal.val vt) v)))) := by
  rw [(calculate_leverage_factor_some h).2]
  dsimp only [Frame.colD]
  simp only [eq_self_iff_true, if_true]
  rw [getD_map_lt _ hj []]

theorem lev_factor_col_length {sq : ℚ → ℚ} {F : Frame} {vt ml : ℚ}
    {p obsY : ℕ} {buckets : List ℕ} {freq : Option String} {ty : String}
    {lev : Frame}
    (h : calculate_leverage_factor sq F vt ml p obsY buckets freq ty true 0
      = some lev) {j : ℕ} (hj : j < F.data.length) :
    (lev.colD j).length = (F.colD j).length := by
  rw [lev_factor_colD h hj, length_forceFirstNaN, length_ffillCol,
    length_resampleCol, length_capLeverage, List.length_map, shiftCol_zero,
    length_rolling_volatility_col]

theorem engineReturns_col_length {a : Frame} {j : ℕ} (hj : j < a.data.length) :
    ((engineReturns a).colD j).length = (a.colD j).length := by
  rw [engineReturns_colD a hj, length_returnsCol, length_ffillCol]

theorem engineReturns_dates (a : Frame) : (engineReturns a).dates = a.dates := rfl

theorem mulFrames_dates (f lev : Frame) : (mulFrames f lev).dates = f.dates := rfl

theorem mulFrames_colD {f lev : Frame} {j : ℕ} (h1 : j < f.data.length)
    (h2 : j < lev.data.length) :
    (mulFrames f lev).colD j = List.zipWith PVal.mul (f.colD j) (lev.colD j) := by
  simp only [mulFrames, Frame.colD]
  exact getD_zipWith_lt _ h1 h2 [] [] []

theorem sd_shape {sq : ℚ → ℚ} {br : BacktestRequest} {a s sd : Frame}
    {br1 : BacktestRequest} {il : Option Frame}
    (hcl : a.data.length = s.data.length) (hWF : a.WF)
    (h : signalVolStep sq br (engineSignalF a s) (engineReturns a) = .ok (sd, br1, il)) :
    sd.dates = a.dates ∧ sd.data.length = a.data.length ∧
    ∀ j, j < a.data.length → (sd.colD j).length = a.dates.length := by
  have hflen : (engineSignalF a s).data.length = a.data.length := by
    rw [data_length_engineSignalF, ← hcl, Nat.min_self]
  rcases signalVolStep_ok_elim h with ⟨-, -, lev, hlev, rfl, -⟩ | ⟨-, rfl, -, -⟩
  · have hlevlen : lev.data.length = a.data.length := by
      rw [lev_factor_data_length hlev, data_length_engineReturns]
    refine ⟨rfl, ?_, ?_⟩
    · rw [mulFrames_data_length, hflen, hlevlen, Nat.min_self]
    · intro j hj
      rw [mulFrames_colD (by rw [hflen]; exact hj) (by rw [hlevlen]; exact hj),
        List.length_zipWith,
        engineSignalF_col_length hWF (by rw [← hcl]; exact hj) hj]
      have hlc : (lev.colD j).length = a.dates.length := by
        rw [lev_factor_col_length hlev (by
            rw [data_length_engineReturns]; exact hj),
          engineReturns_col_length hj, colD_length_WF hWF hj]
      rw [hlc, Nat.min_self]
  · exact ⟨rfl, hflen, fun j hj =>
      engineSignalF_col_length hWF (by rw [← hcl]; exact hj) hj⟩

theorem scaleCombination_mean {br : BacktestRequest} {n : ℕ} {psig : Frame}
    (hc : br.portfolio_combination = some "mean") :
    scaleCombination br n psig = divFrameScalar psig n := by
  rw [scaleCombination, hc]
  simp only []
  rw [if_neg (by decide), if_pos trivial]

/-- C6 (amended): with portfolio_combination = "mean" and portfolio-level
vol adjustment disabled, the portfolio P&L at each date is the NaN-skipping
mean of the per-asset P&L cells of that date (pandas mean), hence the
arithmetic mean of the N values whenever all N per-asset cells are finite;
and the final portfolio signal is the per-asset (possibly leverage-scaled)
signal times the portfolio leverage divided by the asset count N. -/
theorem C6_mean_combination {sq : ℚ → ℚ} {br : BacktestRequest} {a s : Frame}
    {o : BacktestOutput}
    (hok : calculate_trading_PnL sq br a s = .ok o)
    (hc : br.portfolio_combination = some "mean")
    (hpv : br.portfolio_vol_adjust ≠ some true) (hWF : a.WF) :
    (∀ t, t < o.pnl.dates.length →
      getP (o.portfolio.colD 0) t = meanRow (rowAt o.pnl t) ∧
      ((∀ x ∈ rowAt o.pnl t, ∃ q : ℚ, x = PVal.val q) →
        getP (o.portfolio.colD 0) t = specArithMeanRow (rowAt o.pnl t))) ∧
    (∀ j, j < o.signal.data.length → ∀ t, t < o.pnl.dates.length →
      getP (o.portfolio_signal.colD j) t =
        PVal.div (PVal.mul (getP (o.portfolio_leverage.colD 0) t)
          (getP (o.signal.colD j) t)) (PVal.val (o.signal.data.length))) := by
  obtain ⟨sd, br1, il, p0, p1, plev, br2, hcl, hsvs, hcomb, hpvs, rfl⟩ :=
    engine_ok_elim hok
  rw [data_length_reindex] at hcl
  have hbr1 := signalVolStep_br1 hsvs
  have hc1 : br1.portfolio_combination = some "mean" := by rw [hbr1.2.1]; exact hc
  have hpv1 : br1.portfolio_vol_adjust ≠ some true := by rw [hbr1.2.2]; exact hpv
  obtain ⟨rfl, rfl, rfl⟩ := portfolioVolStep_not_adjusted hpv1 hpvs
  have hport := combineStep_mean hc1 hcomb
  subst hport
  obtain ⟨hsdD, hsdlen, hsdcols⟩ := sd_shape hcl hWF hsvs
  constructor
  · intro t ht
    dsimp only at ht ⊢
    refine ⟨portfolioFrame_getP _ _ ht, fun hfin => ?_⟩
    rw [portfolioFrame_getP _ _ ht, meanRow_eq_specArith hfin]
  · intro j hj t ht
    dsimp only at hj ht ⊢
    rw [scaleCombination_mean hc1]
    have hjs : j < sd.data.length := hj
    have hdl : (enginePnlFrame br2.spot_tc_bp sd a s).dates = sd.dates :=
      enginePnlFrame_dates _ _ _ _
    have hsdcol : (sd.colD j).length = a.dates.length :=
      hsdcols j (by rw [← hsdlen]; exact hjs)
    have hcolD : (divFrameScalar (portfolioSignalFrame
        (onesFrame (enginePnlFrame br2.spot_tc_bp sd a s).dates) sd)
          sd.data.length).colD j =
        (List.zipWith PVal.mul
          ((onesFrame (enginePnlFrame br2.spot_tc_bp sd a s).dates).colD 0)
          (sd.colD j)).map fun x => PVal.div x (PVal.val sd.data.length) := by
      simp only [divFrameScalar, portfolioSignalFrame, Frame.colD, List.map_map]
      rw [getD_map_lt _ hjs []]
      rfl
    rw [hcolD]
    have hlen1 : ((onesFrame (enginePnlFrame br2.spot_tc_bp sd a s).dates).colD 0).length
        = a.dates.length := by
      rw [onesFrame_colD, List.length_replicate, hdl, hsdD]
    have htz : t < (List.zipWith PVal.mul
        ((onesFrame (enginePnlFrame br2.spot_tc_bp sd a s).dates).colD 0)
        (sd.colD j)).length := by
      rw [List.length_zipWith, hlen1, hsdcol, Nat.min_self]
      rw [hdl, hsdD] at ht
      exact ht
    rw [getP_map_lt _ htz, getP_zipWith,
      if_pos ⟨by rw [hlen1]; rw [hdl, hsdD] at ht; exact ht,
        by rw [hsdcol]; rw [hdl, hsdD] at ht; exact ht⟩]

/-- C7 (amended): whenever a pre-resample frequency is set,
calculate_leverage_factor returns Python None (the empty result of the
explicitly unimplemented branch); it raises no exception and produces no
leverage series. -/
theorem C7_resample_freq_returns_none (sq : ℚ → ℚ) (F : Frame) (vt ml : ℚ)
    (p obsY : ℕ) (buckets : List ℕ) (f ty : String) (rets : Bool) (shift : ℕ) :
    calculate_leverage_factor sq F vt ml p obsY buckets (some f) ty rets shift
      = none := by
  rw [calculate_leverage_factor]
  simp

/-- C8 (amended): when the asset and signal frames disagree in column
cardinality, calculate_trading_PnL raises (the pandas mask shape check)
and returns no result. -/
theorem C8_cardinality_mismatch_raises (sq : ℚ → ℚ) (br : BacktestRequest)
    {a s : Frame} (hne : a.data.length ≠ s.data.length) :
    runOk (calculate_trading_PnL sq br a s) = false := by
  rw [calculate_trading_PnL, if_neg (by rw [data_length_reindex]; exact hne)]
  rfl

/-- C9 (amended): calculate_trading_PnL leaves the caller's configuration
object unchanged whenever the resample attributes that the engine would
default are already present (or the corresponding vol-adjust switch is not
True); the input frames are never mutated (every pandas call used is
non-inplace, which the pure embedding reflects). -/
theorem C9_config_preserved {sq : ℚ → ℚ} {br : BacktestRequest} {a s : Frame}
    {o : BacktestOutput}
    (hok : calculate_trading_PnL sq br a s = .ok o)
    (hs : br.signal_vol_adjust = some true →
      br.signal_vol_resample_type.isSome ∧ br.signal_vol_resample_freq.isSome)
    (hp : br.portfolio_vol_adjust = some true →
      br.portfolio_vol_resample_type.isSome ∧ br.portfolio_vol_resample_freq.isSome) :
    o.br' = br := by
  obtain ⟨sd, br1, il, p0, p1, plev, br2, -, hsvs, -, hpvs, rfl⟩ :=
    engine_ok_elim hok
  have hbr1 : br1 = br := by
    rcases signalVolStep_ok_elim hsvs with ⟨hadj, rfl, -⟩ | ⟨-, -, rfl, -⟩
    · obtain ⟨h1, h2⟩ := hs hadj
      obtain ⟨x1, hx1⟩ := Option.isSome_iff_exists.mp h1
      obtain ⟨x2, hx2⟩ := Option.isSome_iff_exists.mp h2
      rw [hx1, hx2]
      cases br
      simp_all
    · rfl
  subst hbr1
  show br2 = br1
  rw [portfolioVolStep] at hpvs
  split at hpvs
  case h_1 hadj =>
    rw [calculate_vol_adjusted_returns] at hpvs
    simp only [] at hpvs
    split at hpvs
    case h_1 => exact absurd hpvs (by simp)
    case h_2 lev hlev =>
      injection hpvs with h'
      injection h' with hA h'
      injection h' with hB hC
      obtain ⟨h1, h2⟩ := hp hadj
      obtain ⟨x1, hx1⟩ := Option.isSome_iff_exists.mp h1
      obtain ⟨x2, hx2⟩ := Option.isSome_iff_exists.mp h2
      rw [← hC, hx1, hx2]
      cases br1
      simp_all
  case h_2 =>
    injection hpvs with h'
    injection h' with hA h'
    injection h' with hB hC
    exact hC.symm

/-- C10: if the configuration carries a portfolio_combination value that is
neither "sum" nor "mean", calculate_trading_PnL fails (the local variable
portfolio is never assigned, so its first use raises UnboundLocalError)
before any portfolio output is produced; the mean default applies only when
the attribute is absent. -/
theorem C10_unrecognized_combination_fails (sq : ℚ → ℚ) (br : BacktestRequest)
    (a s : Frame) {v : String} (hc : br.portfolio_combination = some v)
    (h1 : v ≠ "sum") (h2 : v ≠ "mean") :
    runOk (calculate_trading_PnL sq br a s) = false := by
  cases hE : calculate_trading_PnL sq br a s with
  | error e => rfl
  | ok o =>
      exfalso
      obtain ⟨sd, br1, il, p0, p1, plev, br2, -, hsvs, hcomb, -, -⟩ :=
        engine_ok_elim hE
      have hcc : br1.portfolio_combination = some v := by
        rw [(signalVolStep_br1 hsvs).2.1]
        exact hc
      exact combineStep_bad hcc h1 h2 _ hcomb

/-! ### Concrete instances -/

/-- A concrete stand-in for the square root with the sign behaviour the
theorems assume: nonnegative, and zero exactly on nonpositive inputs. -/
def sqId : ℚ → ℚ := fun q => if q ≤ 0 then 0 else q

theorem sqId_nonneg : ∀ q : ℚ, 0 ≤ sqId q := by
  intro q
  rw [sqId]
  split
  · exact le_refl 0
  · exact le_of_lt (lt_of_not_le (by assumption))

/-- A minimal request: no vol targeting, zero transaction cost, mean
portfolio combination. -/
def brMean : BacktestRequest :=
  { spot_tc_bp := 0, ann_factor := 252,
    signal_vol_adjust := none, signal_vol_target := 0,
    signal_vol_max_leverage := 0, signal_vol_periods := 0,
    signal_vol_obs_in_year := 0, signal_vol_rebalance_freq := [],
    signal_vol_resample_freq := none, signal_vol_resample_type := none,
    portfolio_vol_adjust := none, portfolio_vol_target := 0,
    portfolio_vol_max_leverage := 0, portfolio_vol_periods := 0,
    portfolio_vol_obs_in_year := 0, portfolio_vol_rebalance_freq := [],
    portfolio_vol_resample_freq := none, portfolio_vol_resample_type := none,
    portfolio_combination := some "mean" }

/-- A request with a 3bp transaction cost and no combination attribute. -/
def brTc : BacktestRequest :=
  { brMean with spot_tc_bp := 3, portfolio_combination := none }

/-- A request with an unrecognized portfolio_combination value. -/
def brMedian : BacktestRequest :=
  { brMean with portfolio_combination := some "median" }

/-- A request enabling per-signal vol targeting with both resample
attributes absent (the engine will write defaults onto it). -/
def brVol : BacktestRequest :=
  { brMean with
    signal_vol_adjust := some true, signal_vol_target := 1,
    signal_vol_max_leverage := 2, signal_vol_periods := 2,
    signal_vol_obs_in_year := 252, signal_vol_rebalance_freq := [1, 1, 1, 1] }

/-- Like brVol but with the resample attributes already present. -/
def brVolOk : BacktestRequest :=
  { brVol with
    signal_vol_resample_freq := some none,
    signal_vol_resample_type := some "mean" }

/-- The spec scenario: two assets, five daily prices, constant long signal. -/
def pricesS : Frame :=
  { dates := [0, 1, 2, 3, 4], cols := ["A", "B"],
    data := [[.val 100, .val 101, .val 100, .val 102, .val 103],
             [.val 50, .val 50, .val 49, .val 49, .val 50]] }

/-- Signals for the spec scenario (a sign flip exercises the cost term). -/
def signalS : Frame :=
  { dates := [0, 1, 2, 3, 4], cols := ["SA", "SB"],
    data := [[.val 1, .val (-1), .val 1, .val 1, .val 1],
             [.val 1, .val 1, .val 1, .val 1, .val 1]] }

/-- Two assets where the second starts one day later (leading NaN price). -/
def pricesN : Frame :=
  { dates := [0, 1, 2], cols := ["A", "B"],
    data := [[.val 100, .val 101, .val 102],
             [.nan, .val 50, .val 51]] }

/-- Constant long signals for pricesN. -/
def signalN : Frame :=
  { dates := [0, 1, 2], cols := ["SA", "SB"],
    data := [[.val 1, .val 1, .val 1],
             [.val 1, .val 1, .val 1]] }

/-- A one-column price frame. -/
def pxA : Frame :=
  { dates := [0, 1], cols := ["A"], data := [[.val 100, .val 101]] }

/-- A one-column signal frame whose column name disagrees with pxA. -/
def sigX : Frame :=
  { dates := [0, 1], cols := ["X"], data := [[.val 1, .val 1]] }

/-- A two-column price frame (for the cardinality-mismatch witness). -/
def pxAB : Frame :=
  { dates := [0, 1], cols := ["A", "B"],
    data := [[.val 100, .val 101], [.val 1, .val 2]] }

/-- A four-observation price frame for the vol-targeting runs. -/
def pricesV : Frame :=
  { dates := [0, 1, 2, 3], cols := ["A"],
    data := [[.val 100, .val 101, .val 102, .val 103]] }

/-- Constant long signal for pricesV. -/
def signalV : Frame :=
  { dates := [0, 1, 2, 3], cols := ["A"],
    data := [[.val 1, .val 1, .val 1, .val 1]] }

/-- A constant returns frame: four observations of 1/100. -/
def retConst : Frame :=
  { dates := [0, 1, 2, 3], cols := ["A"],
    data := [List.replicate 4 (PVal.val (1 / 100))] }

/-- The leverage frame for retConst with a rebalance at every observation. -/
def levC3 : Frame :=
  frameD (calculate_leverage_factor sqId retConst 1 2 2 252
    (List.replicate 4 1) none "mean" true 0)

/-- The leverage frame for retConst with one four-observation rebalance
bucket (first rebalance date only at the last observation). -/
def levC5b : Frame :=
  frameD (calculate_leverage_factor sqId retConst 1 2 2 252 [4] none "mean"
    true 0)

/-! ### Witnesses and counterexamples -/

/-- Witness for C1 at the spec scenario, asset 0, time 1. -/
theorem C1_witness :
    getP ((runOut (calculate_trading_PnL sqId brTc pricesS signalS)).pnl.colD 0) 1 =
      spec_pnl_value
        ((runOut (calculate_trading_PnL sqId brTc pricesS signalS)).signal.colD 0)
        ((engineReturns pricesS).colD 0) brTc.spot_tc_bp 1 ∧
    getP ((runOut (calculate_trading_PnL sqId brTc pricesS signalS)).pnl.colD 0) 0 =
      PVal.nan := by
  have hok : calculate_trading_PnL sqId brTc pricesS signalS =
      .ok (runOut (calculate_trading_PnL sqId brTc pricesS signalS)) := by
    with_unfolding_all rfl
  exact C1_per_asset_pnl_formula hok (by decide) (by decide)

/-- Witness for C2: asset B of pricesN has a NaN price at the first date,
and the masked signal is NaN there. -/
theorem C2_witness :
    (getP ((maskFrame (reindexFrame signalN pricesN.dates) pricesN).colD 1) 0).isNaN
      = true :=
  C2_alignment_mask_invariant pricesN signalN 1 0 (by decide)

/-- Witness for C3 at the constant returns frame, column 0, time 2. -/
theorem C3_witness :
    getP (levC3.colD 0) 2 = PVal.nan ∨
      ∃ q : ℚ, getP (levC3.colD 0) 2 = PVal.val q ∧ 0 ≤ q ∧ q ≤ 2 := by
  have hres : calculate_leverage_factor sqId retConst 1 2 2 252
      (List.replicate 4 1) none "mean" true 0 = some levC3 := by
    with_unfolding_all rfl
  exact C3_leverage_bound sqId_nonneg (by with_unfolding_all decide)
    (by with_unfolding_all decide) hres 0 2

/-- Witness for C4: the second observation (inside the two-period warm-up)
is NaN. -/
theorem C4_witness : getP (levC3.colD 0) 1 = PVal.nan := by
  have hres : calculate_leverage_factor sqId retConst 1 2 2 252
      (List.replicate 4 1) none "mean" true 0 = some levC3 := by
    with_unfolding_all rfl
  exact C4_warmup_nan hres 0 (by decide)

/-- Witness for the amended C5: with a rebalance at every observation the
post-warm-up leverage is exactly the cap, and no cell is +infinity. -/
theorem C5_witness :
    getP (levC3.colD 0) 3 = PVal.val 2 ∧ getP (levC3.colD 0) 2 ≠ PVal.pinf := by
  have hres : calculate_leverage_factor sqId retConst 1 2 2 252
      (List.replicate 4 1) none "mean" true 0 = some levC3 := by
    with_unfolding_all rfl
  have hconst : ∀ col ∈ retConst.data, ∃ c : ℚ,
      col = List.replicate 4 (PVal.val c) := by
    intro col hcc
    rw [show retConst.data = [List.replicate 4 (PVal.val (1 / 100))] from rfl]
      at hcc
    simp only [List.mem_singleton] at hcc
    exact ⟨1 / 100, hcc⟩
  have hmain := C5_constant_returns_clamped (by with_unfolding_all rfl)
    (by with_unfolding_all decide) (by decide) hconst hres (j := 0) (by decide)
  exact ⟨hmain.1 3 (by decide) (by decide), hmain.2 2⟩

/-- Counterexample to C5 as stated: with a single four-observation rebalance
bucket, the leverage at time 2 (after the two-period warm-up) is NaN, not
the cap vol_max_leverage = 2. -/
theorem C5_counterexample :
    getP (levC5b.colD 0) 2 ≠ PVal.val 2 ∧ getP (levC5b.colD 0) 2 = PVal.nan := by
  with_unfolding_all decide

/-- Witness for the amended C6 at the spec scenario, time 1. -/
theorem C6_witness :
    getP ((runOut (calculate_trading_PnL sqId brMean pricesS signalS)).portfolio.colD 0)
        1 =
      meanRow (rowAt (runOut (calculate_trading_PnL sqId brMean pricesS signalS)).pnl 1)
    ∧ getP ((runOut (calculate_trading_PnL sqId brMean pricesS signalS)).portfolio_signal.colD
        0) 1 =
      PVal.div (PVal.mul
        (getP ((runOut (calculate_trading_PnL sqId brMean pricesS signalS)).portfolio_leverage.colD 0) 1)
        (getP ((runOut (calculate_trading_PnL sqId brMean pricesS signalS)).signal.colD 0) 1))
        (PVal.val ((runOut (calculate_trading_PnL sqId brMean pricesS signalS)).signal.data.length)) := by
  have hok : calculate_trading_PnL sqId brMean pricesS signalS =
      .ok (runOut (calculate_trading_PnL sqId brMean pricesS signalS)) := by
    with_unfolding_all rfl
  have hmain := C6_mean_combination hok (by decide) (by decide) (by decide)
  exact ⟨(hmain.1 1 (by with_unfolding_all decide)).1,
    hmain.2 0 (by with_unfolding_all decide) 1 (by with_unfolding_all decide)⟩

/-- Counterexample to C6 as stated: when one asset's P&L is NaN at a date
where the other's is not (second asset starts a day later), the portfolio
value is the NaN-skipping pandas mean (here 1/100), not the arithmetic mean
of the N per-asset values (which is NaN). -/
theorem C6_counterexample :
    runOk (calculate_trading_PnL sqId brMean pricesN signalN) = true ∧
    getP ((runOut (calculate_trading_PnL sqId brMean pricesN signalN)).portfolio.colD 0)
        1 = PVal.val (1 / 100) ∧
    specArithMeanRow
        (rowAt (runOut (calculate_trading_PnL sqId brMean pricesN signalN)).pnl 1) =
      PVal.nan ∧
    PVal.val (1 / 100) ≠ PVal.nan := by
  with_unfolding_all decide

/-- Counterexample to C7 as stated: with a pre-resample frequency set the
operation returns Python None (an empty result), not an error. -/
theorem C7_counterexample :
    calculate_leverage_factor sqId retConst 1 2 2 252 (List.replicate 4 1)
      (some "D") "mean" true 0 = none := by
  decide

/-- Witness for the amended C8: a two-column asset frame against a
one-column signal frame raises. -/
theorem C8_witness : runOk (calculate_trading_PnL sqId brMean pxAB sigX) = false :=
  C8_cardinality_mismatch_raises sqId brMean (by decide)

/-- Counterexample to C8 as stated: frames whose column sets disagree (but
with equal cardinality) are paired positionally and produce a numeric
result with no error. -/
theorem C8_counterexample :
    runOk (calculate_trading_PnL sqId brMean pxA sigX) = true ∧
    pxA.cols ≠ sigX.cols ∧
    getP ((runOut (calculate_trading_PnL sqId brMean pxA sigX)).pnl.colD 0) 1 =
      PVal.val (1 / 100) := by
  with_unfolding_all decide

/-- Witness for the amended C9: with the resample attributes present, the
configuration object is returned exactly as it was supplied. -/
theorem C9_witness :
    (runOut (calculate_trading_PnL sqId brVolOk pricesV signalV)).br' = brVolOk := by
  have hok : calculate_trading_PnL sqId brVolOk pricesV signalV =
      .ok (runOut (calculate_trading_PnL sqId brVolOk pricesV signalV)) := by
    with_unfolding_all rfl
  exact C9_config_preserved hok (fun _ => ⟨rfl, rfl⟩)
    (fun h => Option.noConfusion h)

/-- Counterexample to C9 as stated: with vol targeting enabled and the
resample attributes absent, the call succeeds but writes default resample
attributes onto the caller's configuration object. -/
theorem C9_counterexample :
    runOk (calculate_trading_PnL sqId brVol pricesV signalV) = true ∧
    (runOut (calculate_trading_PnL sqId brVol pricesV signalV)).br' ≠ brVol := by
  with_unfolding_all decide

/-- Witness for C10: portfolio_combination = "median" makes the engine fail
before producing any portfolio output. -/
theorem C10_witness : runOk (calculate_trading_PnL sqId brMedian pxA sigX) = false :=
  C10_unrecognized_combination_fails sqId brMedian pxA sigX rfl (by decide)
    (by decide)
